import Mathlib

/-!
Verification development for the pyMOR repository fragment consisting of
`src/pymor/parameters/functionals.py` and `src/pymor/algorithms/sylvester.py`.

The Python code is shallowly embedded in Lean.  Real scalar values are
modelled by the rationals; complex conjugation restricted to real values is
the identity and modelled accordingly in the functional algebra, while the
Sylvester embedding keeps the conjugation abstract.  Python assertion and
exception failures are modelled by the `Except` monad with a dedicated
error enumeration.
-/

namespace Pymor

/-- Error outcomes of the embedded Python code.  Python raises
`AssertionError`, `ValueError`, `IndexError`, `KeyError`,
`NotImplementedError` and `TypeError`; the compatibility assertion of
`Parameters.assert_compatible` is given its own tag `incompatible` to keep
it distinguishable in specifications (in Python it is an `AssertionError`
as well). -/
inductive PErr where
  | incompatible
  | assertionFailed
  | valueError
  | indexError
  | keyError
  | notImplemented
  | typeError
deriving DecidableEq, Repr

instance {ε α : Type} [DecidableEq ε] [DecidableEq α] : DecidableEq (Except ε α) := fun a b =>
  match a, b with
  | .ok x, .ok y => if h : x = y then .isTrue (by rw [h]) else .isFalse (by simp [h])
  | .error x, .error y => if h : x = y then .isTrue (by rw [h]) else .isFalse (by simp [h])
  | .ok _, .error _ => .isFalse (by simp)
  | .error _, .ok _ => .isFalse (by simp)

/-- Modelled from the spec: `Parameters` (from `pymor.parameters.base`,
not under `src/`) is an ordered mapping from parameter name to a fixed
integer size.  Modelled as an association list. -/
abbrev Parameters : Type := List (String × Int)

/-- Modelled from the spec: `Mu` (from `pymor.parameters.base`, not under
`src/`) maps parameter names to fixed-length numeric vectors.  Modelled as
an association list of rational vectors. -/
abbrev Mu : Type := List (String × List ℚ)

/-- Lookup in an association list, first match wins. -/
def alookup {α : Type} : List (String × α) → String → Option α
  | [], _ => none
  | (k, v) :: rest, n => if k = n then some v else alookup rest n

/-- Membership of a parameter name in a `Parameters` schema. -/
def containsName (ps : Parameters) (n : String) : Bool :=
  (alookup ps n).isSome

/-- Modelled from the spec: compatibility of parameter values `mu` with a
`Parameters` schema (`Parameters.assert_compatible`, not under `src/`).
A `None` mu is compatible only with the empty schema; otherwise every
declared name must be present with a vector of exactly the declared
size. -/
def compatible (ps : Parameters) (mu : Option Mu) : Bool :=
  match mu with
  | none => ps.isEmpty
  | some m => ps.all (fun p =>
      match alookup m p.1 with
      | some v => (v.length : Int) = p.2
      | none => false)

/-- Modelled from the spec: union of `Parameters` schemas, as aggregated
by `ParametricObject` over sub-objects (first occurrence of a name
wins; pyMOR additionally asserts that duplicate names carry equal
sizes, a situation the claims never construct). -/
def pUnion (a b : Parameters) : Parameters :=
  a ++ b.filter (fun p => ¬ containsName a p.1)

/-- Embedding of `float_cmp` from `pymor.tools.floatcmp` (not under
`src/`), modelled from its use in the spec as an approximate floating
comparison with relative tolerance `rtol` and absolute tolerance
`atol`. -/
def float_cmp (x y rtol atol : ℚ) : Bool :=
  |x - y| ≤ atol + |y| * rtol

/-- Embedding of the `ParameterFunctional` class hierarchy of
`src/pymor/parameters/functionals.py` as a sum type.  The constructors
carry exactly the data the Python objects hold after `__init__`:

* `constant` — `ConstantParameterFunctional.constant_value`;
* `projection` — `ProjectionParameterFunctional.parameter/size/index`;
* `generic` — `GenericParameterFunctional.parameters/mapping/
  derivative_mappings/second_derivative_mappings`; an
  `ExpressionParameterFunctional` is a `GenericParameterFunctional`
  whose mapping is the compiled expression, so it is covered by this
  constructor as well;
* `product` — `ProductParameterFunctional.factors`, a list of
  functionals or plain numbers;
* `conjugate` — `ConjugateParameterFunctional.functional`;
* `minTheta`/`maxTheta` — thetas (numbers already wrapped into constant
  functionals by `__init__`), `mu_bar`, the constant
  `alpha_mu_bar`/`gamma_mu_bar` and the stored vector `thetas_mu_bar`.

Derivative mappings are association lists from parameter name to the
list of component derivative mappings, mirroring
`derivative_mappings[parameter][index]`; second order mappings nest the
same shape once more. -/
inductive ParameterFunctional where
  | constant (value : ℚ)
  | projection (parameter : String) (size : Int) (index : Int)
  | generic (params : Parameters) (mapping : Option Mu → ℚ)
      (derivative_mappings : Option (List (String × List (Option Mu → ℚ))))
      (second_derivative_mappings :
        Option (List (String × List (List (String × List (Option Mu → ℚ))))))
  | product (factors : List (ParameterFunctional ⊕ ℚ))
  | conjugate (functional : ParameterFunctional)
  | minTheta (thetas : List ParameterFunctional) (mu_bar : Mu)
      (alpha_mu_bar : ℚ) (thetas_mu_bar : List ℚ)
  | maxTheta (thetas : List ParameterFunctional) (mu_bar : Mu)
      (gamma_mu_bar : ℚ) (thetas_mu_bar : List ℚ)

namespace ParameterFunctional

mutual

/-- Effective `Parameters` of a functional: its own parameters united
with the parameters aggregated from sub-objects (`ParametricObject`
semantics, modelled from the spec). -/
def params : ParameterFunctional → Parameters
  | .constant _ => []
  | .projection parameter size _ => [(parameter, size)]
  | .generic ps _ _ _ => ps
  | .product factors => factorsParams factors
  | .conjugate functional => functional.params
  | .minTheta thetas _ _ _ => listParams thetas
  | .maxTheta thetas _ _ _ => listParams thetas

/-- Union of the parameters of a list of sub-functionals. -/
def listParams : List ParameterFunctional → Parameters
  | [] => []
  | f :: rest => pUnion f.params (listParams rest)

/-- Union of the parameters of the functional factors of a product
(plain numbers contribute nothing). -/
def factorsParams : List (ParameterFunctional ⊕ ℚ) → Parameters
  | [] => []
  | .inl f :: rest => pUnion f.params (factorsParams rest)
  | .inr _ :: rest => factorsParams rest

end

/-- Embedding of `assert self.parameters.assert_compatible(mu)`. -/
def checkCompat (ps : Parameters) (mu : Option Mu) : Except PErr Unit :=
  if compatible ps mu then .ok () else .error .incompatible

mutual

/-- Embedding of the `evaluate` methods of all
`ParameterFunctional` variants of `functionals.py`.  Each case follows
the corresponding Python method line by line; note that
`ConstantParameterFunctional.evaluate` performs no compatibility
check. -/
def evaluate : ParameterFunctional → Option Mu → Except PErr ℚ
  | .constant value, _ => .ok value
  | .projection parameter size index, mu => do
      checkCompat [(parameter, size)] mu
      match mu with
      | none => .error .typeError
      | some m =>
        match alookup m parameter with
        | none => .error .keyError
        | some v =>
          if h : 0 ≤ index ∧ index.toNat < v.length then
            .ok (v.get ⟨index.toNat, h.2⟩)
          else
            .error .indexError
  | .generic ps mapping _ _, mu => do
      checkCompat ps mu
      .ok (mapping mu)
  | .product factors, mu => do
      checkCompat (factorsParams factors) mu
      let vals ← evalFactors factors mu
      .ok vals.prod
  | .conjugate functional, mu => do
      checkCompat functional.params mu
      let v ← evaluate functional mu
      .ok v
  | .minTheta thetas _ alpha_mu_bar thetas_mu_bar, mu => do
      checkCompat (listParams thetas) mu
      let thetas_mu ← evalList thetas mu
      if thetas_mu.all (fun v => 0 < v) then
        if thetas_mu.length = thetas_mu_bar.length then
          match thetas_mu.zipWith (· / ·) thetas_mu_bar with
          | [] => .error .valueError
          | x :: rest => .ok (alpha_mu_bar * rest.foldl min x)
        else .error .valueError
      else .error .assertionFailed
  | .maxTheta thetas _ gamma_mu_bar thetas_mu_bar, mu => do
      checkCompat (listParams thetas) mu
      let thetas_mu ← evalList thetas mu
      if thetas_mu.all (fun v => v < 0 ∨ 0 < v) then
        if thetas_mu.length = thetas_mu_bar.length then
          match thetas_mu.zipWith (· / ·) thetas_mu_bar with
          | [] => .error .valueError
          | x :: rest => .ok (gamma_mu_bar * |rest.foldl max x|)
        else .error .valueError
      else .error .assertionFailed

/-- Evaluation of a list of sub-functionals, failures propagating. -/
def evalList : List ParameterFunctional → Option Mu → Except PErr (List ℚ)
  | [], _ => .ok []
  | f :: rest, mu => do
      let v ← evaluate f mu
      let vs ← evalList rest mu
      .ok (v :: vs)

/-- Evaluation of product factors:
`f.evaluate(mu) if hasattr(f, 'evaluate') else f`. -/
def evalFactors : List (ParameterFunctional ⊕ ℚ) → Option Mu → Except PErr (List ℚ)
  | [], _ => .ok []
  | .inl f :: rest, mu => do
      let v ← evaluate f mu
      let vs ← evalFactors rest mu
      .ok (v :: vs)
  | .inr c :: rest, mu => do
      let vs ← evalFactors rest mu
      .ok (c :: vs)

end

/-- Embedding of the `d_mu` methods of `functionals.py`.  The
`projection`, `generic` and `constant` cases embed the overriding
methods of `ProjectionParameterFunctional`, `GenericParameterFunctional`
and `ConstantParameterFunctional`; the remaining constructors fall
through to the base `ParameterFunctional.d_mu`, which returns the zero
constant functional when the parameter is not in the schema and raises
`NotImplementedError` otherwise. -/
def d_mu : ParameterFunctional → String → Int → Except PErr ParameterFunctional
  | .projection parameter size index, p, idx =>
      if p = parameter then
        if 0 ≤ idx ∧ idx < size then
          if idx = index then .ok (.constant 1) else .ok (.constant 0)
        else .error .assertionFailed
      else .ok (.constant 0)
  | .generic ps _ derivative_mappings second_derivative_mappings, p, idx =>
      if containsName ps p then
        match alookup ps p with
        | none => .error .keyError
        | some s =>
          if 0 ≤ idx ∧ idx < s then
            match derivative_mappings with
            | none => .error .valueError
            | some dmap =>
              match alookup dmap p with
              | none => .error .valueError
              | some lst =>
                match lst.get? idx.toNat with
                | none => .error .indexError
                | some fder =>
                  match second_derivative_mappings with
                  | none => .ok (.generic ps fder none none)
                  | some d2map =>
                    match alookup d2map p with
                    | none => .ok (.generic ps fder (some []) none)
                    | some l2 =>
                      match l2.get? idx.toNat with
                      | none => .error .indexError
                      | some dmap2 => .ok (.generic ps fder (some dmap2) none)
          else .error .assertionFailed
      else .ok (.constant 0)
  | .constant _, _, _ => .ok (.constant 0)
  | f, p, _ =>
      if containsName f.params p then .error .notImplemented
      else .ok (.constant 0)

end ParameterFunctional

open ParameterFunctional

/-- Embedding of `ProjectionParameterFunctional.__init__`: an `index` of
`none` models the Python default `None`, which becomes `0` when
`size == 1`; otherwise construction asserts that the index is a number
within `[0, size)`. -/
def mkProjectionParameterFunctional (parameter : String) (size : Int) (index : Option Int) :
    Except PErr ParameterFunctional :=
  let index := if index = none ∧ size = 1 then some 0 else index
  match index with
  | none => .error .assertionFailed
  | some i =>
    if 0 ≤ i ∧ i < size then .ok (.projection parameter size i)
    else .error .assertionFailed

/-- Wrapping of plain numbers among the thetas into constant
functionals, as done by the Min/Max theta `__init__` methods. -/
def wrapThetas (thetas : List (ParameterFunctional ⊕ ℚ)) : List ParameterFunctional :=
  thetas.map (fun t => match t with | .inl f => f | .inr v => .constant v)

/-- Embedding of `MinThetaParameterFunctional.__init__`.  The reference
parameter is taken as already parsed values (the `Parameters.of(...).parse`
branch of the Python code is the identity in that case); the
construction asserts a nonempty theta list, compatibility of `mu_bar`,
strict positivity of every theta at `mu_bar` and positivity of
`alpha_mu_bar`. -/
def mkMinThetaParameterFunctional (thetas : List (ParameterFunctional ⊕ ℚ)) (mu_bar : Mu)
    (alpha_mu_bar : ℚ) : Except PErr ParameterFunctional :=
  if 0 < thetas.length then
    let th := wrapThetas thetas
    if compatible (listParams th) (some mu_bar) then
      match evalList th (some mu_bar) with
      | .error e => .error e
      | .ok thetas_mu_bar =>
        if thetas_mu_bar.all (fun v => 0 < v) then
          if 0 < alpha_mu_bar then
            .ok (.minTheta th mu_bar alpha_mu_bar thetas_mu_bar)
          else .error .assertionFailed
        else .error .assertionFailed
    else .error .incompatible
  else .error .assertionFailed

/-- Embedding of `MaxThetaParameterFunctional.__init__`.  The zero test
on the thetas at `mu_bar` is the approximate `float_cmp` comparison
with tolerances `rtol` and `atol`, as in the Python code. -/
def mkMaxThetaParameterFunctional (thetas : List (ParameterFunctional ⊕ ℚ)) (mu_bar : Mu)
    (gamma_mu_bar rtol atol : ℚ) : Except PErr ParameterFunctional :=
  if 0 < thetas.length then
    let th := wrapThetas thetas
    if compatible (listParams th) (some mu_bar) then
      match evalList th (some mu_bar) with
      | .error e => .error e
      | .ok thetas_mu_bar =>
        if thetas_mu_bar.any (fun v => float_cmp v 0 rtol atol) then
          .error .assertionFailed
        else
          if 0 < gamma_mu_bar then
            .ok (.maxTheta th mu_bar gamma_mu_bar thetas_mu_bar)
          else .error .assertionFailed
    else .error .incompatible
  else .error .assertionFailed

/-- Modelled from the spec (stated for comparison with the source): the
value claimed for `MaxThetaParameterFunctional.evaluate`, namely
`gamma_mu_bar` times the maximum over `q` of the ABSOLUTE VALUE of the
ratio `theta_q(mu)/theta_q(mu_bar)`. -/
def maxThetaClaimedValue (gamma_mu_bar : ℚ) (thetas_mu thetas_mu_bar : List ℚ) : ℚ :=
  match (thetas_mu.zipWith (· / ·) thetas_mu_bar).map (fun x => |x|) with
  | [] => 0
  | x :: rest => gamma_mu_bar * rest.foldl max x

theorem evalList_length {th : List ParameterFunctional} {mu : Option Mu} {vals : List ℚ}
    (h : evalList th mu = .ok vals) : vals.length = th.length := by
  induction th generalizing vals with
  | nil => simp [evalList] at h; simp [← h]
  | cons f rest ih =>
    rw [evalList] at h
    cases hf : evaluate f mu with
    | error e => rw [hf] at h; simp [bind, Except.bind] at h
    | ok v =>
      rw [hf] at h
      cases hr : evalList rest mu with
      | error e => rw [hr] at h; simp [bind, Except.bind] at h
      | ok vs =>
        rw [hr] at h
        simp [bind, Except.bind, pure, Except.pure] at h
        subst h
        simp [ih hr]

theorem compatible_nil (mu : Option Mu) : compatible [] mu = true := by
  cases mu <;> simp [compatible, List.isEmpty]

/-- C3: for every `ParameterFunctional` variant (projection, generic —
which also covers expression functionals —, product, conjugate,
constant, min-theta, max-theta) and every argument `mu`, `evaluate`
fails with the compatibility error whenever `mu` is not compatible with
the effective `Parameters` schema of the functional; for the constant
functional the schema is empty, so no incompatible `mu` exists and the
check is vacuous. -/
theorem C3_evaluate_checks_compatibility (f : ParameterFunctional) (mu : Option Mu)
    (h : ¬ compatible f.params mu = true) :
    f.evaluate mu = .error .incompatible := by
  cases f with
  | constant v => exact absurd (compatible_nil mu) (by simpa [params] using h)
  | projection p s i =>
    simp only [params] at h
    simp [evaluate, checkCompat, h, bind, Except.bind]
  | generic ps mapping dm d2m =>
    simp only [params] at h
    simp [evaluate, checkCompat, h, bind, Except.bind]
  | product fs =>
    simp only [params] at h
    simp [evaluate, checkCompat, h, bind, Except.bind]
  | conjugate g =>
    simp only [params] at h
    simp [evaluate, checkCompat, h, bind, Except.bind]
  | minTheta th mb a tmb =>
    simp only [params] at h
    simp [evaluate, checkCompat, h, bind, Except.bind]
  | maxTheta th mb g tmb =>
    simp only [params] at h
    simp [evaluate, checkCompat, h, bind, Except.bind]

theorem C3_witness :
    ¬ compatible (ParameterFunctional.projection "diffusion" 2 1).params none = true ∧
    (ParameterFunctional.projection "diffusion" 2 1).evaluate none = .error .incompatible :=
  ⟨by decide, C3_evaluate_checks_compatibility _ none (by decide)⟩

/-- C4: for every `ParameterFunctional` variant, `d_mu` called with a
parameter name outside the effective `Parameters` schema returns the
zero constant functional and does not raise. -/
theorem C4_d_mu_missing_parameter_gives_zero (f : ParameterFunctional) (p : String) (idx : Int)
    (h : containsName f.params p = false) :
    f.d_mu p idx = .ok (.constant 0) := by
  cases f with
  | constant v => rfl
  | projection parameter size index =>
    have hne : ¬ p = parameter := by
      intro he
      subst he
      simp [params, containsName, alookup] at h
    simp [d_mu, hne]
  | generic ps mapping dm d2m =>
    simp only [params] at h
    simp [d_mu, h]
  | product fs =>
    simp only [params] at h
    simp [d_mu, params, h]
  | conjugate g =>
    simp only [params] at h
    simp [d_mu, params, h]
  | minTheta th mb a tmb =>
    simp only [params] at h
    simp [d_mu, params, h]
  | maxTheta th mb g tmb =>
    simp only [params] at h
    simp [d_mu, params, h]

theorem C4_witness :
    containsName (ParameterFunctional.projection "diffusion" 2 1).params "reaction" = false ∧
    (ParameterFunctional.projection "diffusion" 2 1).d_mu "reaction" 0 = .ok (.constant 0) :=
  ⟨by decide, C4_d_mu_missing_parameter_gives_zero _ "reaction" 0 (by decide)⟩

/-- C10: constructing a `ProjectionParameterFunctional` with `index=None`
and `size=1` stores index `0`; with an explicit index, construction
succeeds exactly when `0 <= index < size` (and fails otherwise, also
when `index=None` with `size != 1`); `d_mu` for the owned parameter
name asserts `0 <= index < size` and returns the constant-one
functional exactly when the queried index equals the stored one, the
constant-zero functional otherwise. -/
theorem C10_projection_init_and_d_mu (parameter : String) (size i idx : Int) :
    (mkProjectionParameterFunctional parameter 1 none = .ok (.projection parameter 1 0)) ∧
    (mkProjectionParameterFunctional parameter size (some i) = .ok (.projection parameter size i)
      ↔ 0 ≤ i ∧ i < size) ∧
    (¬ size = 1 → mkProjectionParameterFunctional parameter size none = .error .assertionFailed) ∧
    (0 ≤ idx ∧ idx < size →
      (ParameterFunctional.projection parameter size i).d_mu parameter idx
        = .ok (.constant (if idx = i then 1 else 0))) ∧
    (¬ (0 ≤ idx ∧ idx < size) →
      (ParameterFunctional.projection parameter size i).d_mu parameter idx
        = .error .assertionFailed) := by
  refine ⟨?_, ?_, ?_, ?_, ?_⟩
  · simp [mkProjectionParameterFunctional]
  · constructor
    · intro h
      by_cases hb : 0 ≤ i ∧ i < size
      · exact hb
      · simp [mkProjectionParameterFunctional, hb] at h
    · intro hb
      simp [mkProjectionParameterFunctional, hb]
  · intro hs
    simp [mkProjectionParameterFunctional, hs]
  · intro hb
    by_cases he : idx = i
    · subst he
      simp [ParameterFunctional.d_mu, hb]
    · simp [ParameterFunctional.d_mu, hb, he]
  · intro hb
    simp [ParameterFunctional.d_mu, hb]

theorem C10_witness :
    (mkProjectionParameterFunctional "p" 1 none = .ok (.projection "p" 1 0)) ∧
    (mkProjectionParameterFunctional "p" 3 (some 1) = .ok (.projection "p" 3 1)) ∧
    (mkProjectionParameterFunctional "p" 3 none = .error .assertionFailed) ∧
    ((ParameterFunctional.projection "p" 3 1).d_mu "p" 1 = .ok (.constant 1)) ∧
    ((ParameterFunctional.projection "p" 3 1).d_mu "p" 5 = .error .assertionFailed) := by
  refine ⟨(C10_projection_init_and_d_mu "p" 3 1 1).1,
          (C10_projection_init_and_d_mu "p" 3 1 1).2.1.mpr (by decide),
          (C10_projection_init_and_d_mu "p" 3 1 1).2.2.1 (by decide),
          ?_, (C10_projection_init_and_d_mu "p" 3 1 5).2.2.2.2 (by decide)⟩
  have h := (C10_projection_init_and_d_mu "p" 3 1 1).2.2.2.1 (by decide)
  simpa using h

/-- C5: constructing a `MinThetaParameterFunctional` fails when some
theta at `mu_bar` is not strictly positive, and constructing a
`MaxThetaParameterFunctional` fails when some theta at `mu_bar` is
zero, in both cases at construction time (inside the embedded
`__init__`); and `evaluate` of each fails at any `mu` where the same
sign condition is violated by the thetas at `mu`. -/
theorem C5_min_max_theta_sign_preconditions :
    (∀ (thetas : List (ParameterFunctional ⊕ ℚ)) (mu_bar : Mu) (alpha : ℚ) (vals : List ℚ),
       evalList (wrapThetas thetas) (some mu_bar) = .ok vals →
       (∃ v ∈ vals, ¬ 0 < v) →
       ∃ e, mkMinThetaParameterFunctional thetas mu_bar alpha = .error e) ∧
    (∀ (thetas : List (ParameterFunctional ⊕ ℚ)) (mu_bar : Mu) (gamma rtol atol : ℚ)
       (vals : List ℚ), 0 ≤ atol →
       evalList (wrapThetas thetas) (some mu_bar) = .ok vals →
       (∃ v ∈ vals, v = 0) →
       ∃ e, mkMaxThetaParameterFunctional thetas mu_bar gamma rtol atol = .error e) ∧
    (∀ (th : List ParameterFunctional) (mu_bar : Mu) (alpha : ℚ) (tmb : List ℚ) (mu : Mu)
       (vals : List ℚ),
       evalList th (some mu) = .ok vals →
       (∃ v ∈ vals, ¬ 0 < v) →
       ∃ e, (ParameterFunctional.minTheta th mu_bar alpha tmb).evaluate (some mu) = .error e) ∧
    (∀ (th : List ParameterFunctional) (mu_bar : Mu) (gamma : ℚ) (tmb : List ℚ) (mu : Mu)
       (vals : List ℚ),
       evalList th (some mu) = .ok vals →
       (∃ v ∈ vals, v = 0) →
       ∃ e, (ParameterFunctional.maxTheta th mu_bar gamma tmb).evaluate (some mu) = .error e) := by
  refine ⟨?_, ?_, ?_, ?_⟩
  · intro thetas mu_bar alpha vals hev hbad
    have hall : vals.all (fun v => decide (0 < v)) = false := by
      rcases hbad with ⟨v, hv, hvn⟩
      rw [List.all_eq_false]
      exact ⟨v, hv, by simpa using hvn⟩
    by_cases hlen : 0 < thetas.length
    · by_cases hc : compatible (listParams (wrapThetas thetas)) (some mu_bar) = true
      · exact ⟨.assertionFailed, by simp [mkMinThetaParameterFunctional, hlen, hc, hev, hall]⟩
      · exact ⟨.incompatible, by simp [mkMinThetaParameterFunctional, hlen, hc, hev]⟩
    · exact ⟨.assertionFailed, by simp [mkMinThetaParameterFunctional, hlen]⟩
  · intro thetas mu_bar gamma rtol atol vals hatol hev hbad
    have hany : vals.any (fun v => float_cmp v 0 rtol atol) = true := by
      rcases hbad with ⟨v, hv, hv0⟩
      rw [List.any_eq_true]
      refine ⟨v, hv, ?_⟩
      simp [float_cmp, hv0]
      positivity
    by_cases hlen : 0 < thetas.length
    · by_cases hc : compatible (listParams (wrapThetas thetas)) (some mu_bar) = true
      · exact ⟨.assertionFailed, by simp [mkMaxThetaParameterFunctional, hlen, hc, hev, hany]⟩
      · exact ⟨.incompatible, by simp [mkMaxThetaParameterFunctional, hlen, hc, hev]⟩
    · exact ⟨.assertionFailed, by simp [mkMaxThetaParameterFunctional, hlen]⟩
  · intro th mu_bar alpha tmb mu vals hev hbad
    have hall : vals.all (fun v => decide (0 < v)) = false := by
      rcases hbad with ⟨v, hv, hvn⟩
      rw [List.all_eq_false]
      exact ⟨v, hv, by simpa using hvn⟩
    by_cases hc : compatible (listParams th) (some mu) = true
    · exact ⟨.assertionFailed,
        by simp [evaluate, checkCompat, hc, hev, hall, bind, Except.bind]⟩
    · exact ⟨.incompatible, by simp [evaluate, checkCompat, hc, bind, Except.bind]⟩
  · intro th mu_bar gamma tmb mu vals hev hbad
    have hall : vals.all (fun v => decide (v < 0 ∨ 0 < v)) = false := by
      rcases hbad with ⟨v, hv, hv0⟩
      rw [List.all_eq_false]
      exact ⟨v, hv, by simp [hv0]⟩
    by_cases hc : compatible (listParams th) (some mu) = true
    · refine ⟨.assertionFailed, ?_⟩
      simp only [evaluate, checkCompat, hc, if_true, hev, bind, Except.bind]
      rw [hall]
      simp
    · exact ⟨.incompatible, by simp [evaluate, checkCompat, hc, bind, Except.bind]⟩

theorem C5_witness :
    (∃ e, mkMinThetaParameterFunctional [.inr (-1)] [] 1 = .error e) ∧
    (∃ e, mkMaxThetaParameterFunctional [.inr 0] [] 1 0 0 = .error e) ∧
    (∃ e, (ParameterFunctional.minTheta [.constant (-1)] [] 1 [1]).evaluate (some []) = .error e) ∧
    (∃ e, (ParameterFunctional.maxTheta [.constant 0] [] 1 [1]).evaluate (some []) = .error e) :=
  ⟨C5_min_max_theta_sign_preconditions.1 [.inr (-1)] [] 1 [-1] (by rfl)
     ⟨-1, by simp, by norm_num⟩,
   C5_min_max_theta_sign_preconditions.2.1 [.inr 0] [] 1 0 0 [0] le_rfl (by rfl)
     ⟨0, by simp, rfl⟩,
   C5_min_max_theta_sign_preconditions.2.2.1 [.constant (-1)] [] 1 [1] [] [-1] (by rfl)
     ⟨-1, by simp, by norm_num⟩,
   C5_min_max_theta_sign_preconditions.2.2.2 [.constant 0] [] 1 [1] [] [0] (by rfl)
     ⟨0, by simp, rfl⟩⟩

theorem zipWith_div_self {l : List ℚ} (h : ∀ v ∈ l, 0 < v) :
    l.zipWith (· / ·) l = List.replicate l.length (1 : ℚ) := by
  induction l with
  | nil => rfl
  | cons v vs ih =>
    have hv : v ≠ 0 := ne_of_gt (h v (by simp))
    simp only [List.zipWith, List.length_cons, List.replicate_succ, div_self hv]
    rw [ih (fun w hw => h w (by simp [hw]))]

theorem foldl_min_replicate_one (n : ℕ) (x : ℚ) :
    List.foldl min x (List.replicate n (1 : ℚ)) = if n = 0 then x else min x 1 := by
  induction n generalizing x with
  | zero => simp
  | succ m ih =>
    rw [List.replicate_succ, List.foldl_cons, ih (min x 1)]
    rcases Nat.eq_zero_or_pos m with hm | hm
    · simp [hm]
    · rw [if_neg (by omega), if_neg (by omega), min_assoc, min_self]

/-- C8: a `MinThetaParameterFunctional` evaluated at its own reference
parameter `mu_bar` returns exactly `alpha_mu_bar` (all the ratios are
one, so their minimum is one). -/
theorem C8_min_theta_at_mu_bar (thetas : List (ParameterFunctional ⊕ ℚ)) (mu_bar : Mu)
    (alpha_mu_bar : ℚ) (f : ParameterFunctional)
    (hmk : mkMinThetaParameterFunctional thetas mu_bar alpha_mu_bar = .ok f) :
    f.evaluate (some mu_bar) = .ok alpha_mu_bar := by
  rw [mkMinThetaParameterFunctional] at hmk
  by_cases hlen : 0 < thetas.length
  · rw [if_pos hlen] at hmk
    by_cases hc : compatible (listParams (wrapThetas thetas)) (some mu_bar) = true
    · rw [if_pos hc] at hmk
      cases heq : evalList (wrapThetas thetas) (some mu_bar) with
      | error e =>
        rw [heq] at hmk
        exact absurd hmk (by simp)
      | ok tmb =>
        rw [heq] at hmk
        dsimp only at hmk
        by_cases hall : tmb.all (fun v => decide (0 < v)) = true
        · rw [if_pos hall] at hmk
          by_cases ha : 0 < alpha_mu_bar
          · rw [if_pos ha] at hmk
            have hf : f = .minTheta (wrapThetas thetas) mu_bar alpha_mu_bar tmb := by
              cases hmk
              rfl
            subst hf
            have hpos : ∀ v ∈ tmb, 0 < v := by
              intro v hv
              simpa using List.all_eq_true.mp hall v hv
            have hne : tmb.length ≠ 0 := by
              rw [evalList_length heq]
              simp only [wrapThetas, List.length_map]
              omega
            simp only [evaluate]
            rw [checkCompat, if_pos hc]
            simp only [bind, Except.bind, heq]
            rw [if_pos hall]
            rw [if_pos trivial, zipWith_div_self hpos]
            cases tmb with
            | nil => exact absurd rfl hne
            | cons v vs =>
              simp only [List.length_cons, List.replicate_succ]
              rw [foldl_min_replicate_one]
              rcases Nat.eq_zero_or_pos vs.length with hm | hm
              · simp
              · rw [if_neg (by omega), min_self, mul_one]
          · rw [if_neg ha] at hmk
            exact absurd hmk (by simp)
        · rw [if_neg hall] at hmk
          exact absurd hmk (by simp)
    · rw [if_neg hc] at hmk
      exact absurd hmk (by simp)
  · rw [if_neg hlen] at hmk
    exact absurd hmk (by simp)

theorem C8_witness :
    (ParameterFunctional.minTheta [.constant 2] [] 3 [2]).evaluate (some []) = .ok 3 := by
  have hmk : mkMinThetaParameterFunctional [.inr 2] [] 3
      = .ok (.minTheta [.constant 2] [] 3 [2]) := by
    simp [mkMinThetaParameterFunctional, wrapThetas, listParams, params, pUnion, compatible,
          evalList, evaluate, bind, Except.bind]
  exact C8_min_theta_at_mu_bar [.inr 2] [] 3 _ hmk

/-- C1 counterexample: for the thetas `[mu -> mu[p][0], 1]`, reference
parameter `p = 1` and `gamma_mu_bar = 1`, at `mu` with `p = -5` the
ratios are `[-5, 1]`; the code returns `gamma * |max(ratios)| = 1`,
while the claimed value `gamma * max(|ratios|)` is `5`. -/
theorem C1_counterexample :
    mkMaxThetaParameterFunctional [.inl (.projection "p" 1 0), .inr 1] [("p", [1])] 1
        (1 / 2 ^ 48) (1 / 2 ^ 48)
      = .ok (.maxTheta [.projection "p" 1 0, .constant 1] [("p", [1])] 1 [1, 1]) ∧
    (ParameterFunctional.maxTheta [.projection "p" 1 0, .constant 1] [("p", [1])] 1
        [1, 1]).evaluate (some [("p", [-5])]) = .ok 1 ∧
    maxThetaClaimedValue 1 [-5, 1] [1, 1] = 5 ∧
    (1 : ℚ) ≠ 5 := by
  refine ⟨?_, ?_, ?_, by norm_num⟩
  · simp [mkMaxThetaParameterFunctional, wrapThetas, listParams, params, pUnion, compatible,
          alookup, containsName, evalList, evaluate, checkCompat, bind, Except.bind, float_cmp]
    norm_num
  · simp [evaluate, evalList, checkCompat, compatible, alookup, listParams, params, pUnion,
          containsName, bind, Except.bind]
    norm_num
  · simp [maxThetaClaimedValue]

/-- C1 amended: for every `MaxThetaParameterFunctional` constructed from
thetas, `mu_bar` and `gamma_mu_bar`, and every compatible `mu`
satisfying the sign precondition, `evaluate(mu)` returns `gamma_mu_bar`
times the ABSOLUTE VALUE OF THE MAXIMUM over `q` of the ratio
`theta_q(mu)/theta_q(mu_bar)` (not the maximum of the absolute
ratios). -/
theorem C1_max_theta_evaluate_amended (thetas : List (ParameterFunctional ⊕ ℚ)) (mu_bar : Mu)
    (gamma_mu_bar rtol atol : ℚ) (f : ParameterFunctional) (mu : Mu)
    (vals valsBar : List ℚ) (x : ℚ) (rest : List ℚ)
    (hmk : mkMaxThetaParameterFunctional thetas mu_bar gamma_mu_bar rtol atol = .ok f)
    (hbar : evalList (wrapThetas thetas) (some mu_bar) = .ok valsBar)
    (hc : compatible (listParams (wrapThetas thetas)) (some mu) = true)
    (hev : evalList (wrapThetas thetas) (some mu) = .ok vals)
    (hsign : ∀ v ∈ vals, v < 0 ∨ 0 < v)
    (hz : vals.zipWith (· / ·) valsBar = x :: rest) :
    f.evaluate (some mu) = .ok (gamma_mu_bar * |rest.foldl max x|) := by
  rw [mkMaxThetaParameterFunctional] at hmk
  by_cases hlen : 0 < thetas.length
  · rw [if_pos hlen] at hmk
    by_cases hcb : compatible (listParams (wrapThetas thetas)) (some mu_bar) = true
    · rw [if_pos hcb] at hmk
      cases heq : evalList (wrapThetas thetas) (some mu_bar) with
      | error e =>
        rw [heq] at hmk
        exact absurd hmk (by simp)
      | ok tmb =>
        rw [heq] at hmk
        dsimp only at hmk
        have htmb : tmb = valsBar := by
          rw [heq] at hbar
          exact (Except.ok.injEq _ _).mp hbar
        subst htmb
        by_cases hany : tmb.any (fun v => float_cmp v 0 rtol atol) = true
        · rw [if_pos hany] at hmk
          exact absurd hmk (by simp)
        · rw [if_neg hany] at hmk
          by_cases hg : 0 < gamma_mu_bar
          · rw [if_pos hg] at hmk
            have hf : f = .maxTheta (wrapThetas thetas) mu_bar gamma_mu_bar tmb := by
              cases hmk
              rfl
            subst hf
            have hall : vals.all (fun v => decide (v < 0 ∨ 0 < v)) = true := by
              rw [List.all_eq_true]
              intro v hv
              simpa using hsign v hv
            have hlen2 : vals.length = tmb.length := by
              rw [evalList_length hev, evalList_length hbar]
            simp only [evaluate]
            rw [checkCompat, if_pos hc]
            simp only [bind, Except.bind, hev]
            rw [if_pos hall, if_pos hlen2, hz]
          · rw [if_neg hg] at hmk
            exact absurd hmk (by simp)
    · rw [if_neg hcb] at hmk
      exact absurd hmk (by simp)
  · rw [if_neg hlen] at hmk
    exact absurd hmk (by simp)

theorem C1_witness :
    (ParameterFunctional.maxTheta [.projection "p" 1 0, .constant 1] [("p", [1])] 1
        [1, 1]).evaluate (some [("p", [2])]) = .ok 2 := by
  have h := C1_max_theta_evaluate_amended [.inl (.projection "p" 1 0), .inr 1] [("p", [1])] 1
      (1 / 2 ^ 48) (1 / 2 ^ 48)
      (.maxTheta [.projection "p" 1 0, .constant 1] [("p", [1])] 1 [1, 1]) [("p", [2])]
      [2, 1] [1, 1] 2 [1]
      (by simp [mkMaxThetaParameterFunctional, wrapThetas, listParams, params, pUnion, compatible,
            alookup, containsName, evalList, evaluate, checkCompat, bind, Except.bind, float_cmp]
          norm_num)
      (by simp [wrapThetas, evalList, evaluate, checkCompat, compatible, alookup, listParams,
            params, pUnion, containsName, bind, Except.bind])
      (by decide)
      (by simp [wrapThetas, evalList, evaluate, checkCompat, compatible, alookup, listParams,
            params, pUnion, containsName, bind, Except.bind])
      (by norm_num)
      (by norm_num)
  rw [h]
  norm_num

/-! ## Sylvester equation solver

Embedding of `solve_sylv_schur` from `src/pymor/algorithms/sylvester.py`.
The large operators `A`, `E` and the factors `B`, `C` are abstract
|Operators| accessed only through `apply`, `apply_adjoint`,
`apply_inverse` and `apply_inverse_adjoint`; they are modelled as an
operation record over abstract scalar and vector types.  The reduced
operators enter the algorithm only through `r = Ar.shape[0]` and the
outputs `TAr, TEr, Q, Z` of the scipy (generalized) Schur decomposition
`spla.schur` / `spla.qz` (an external library), which are therefore
taken as inputs.  Every `apply_inverse` / `apply_inverse_adjoint` call
of the embedded algorithm is recorded in a trace. -/

/-- Operations of the abstract Operator/VectorArray interface consumed
by `solve_sylv_schur`: `K` is the scalar type (complex in the Python
code, with `conj` the complex conjugation), `V` the vector type of
`A.source`, `U` the vector type of the source of `B` (respectively the
range of `C`).  `applyInv c1 c2` is
`LincombOperator([A, E], [c1, c2]).apply_inverse` and `applyInvAdj`
the corresponding `apply_inverse_adjoint`; `reV` is the elementwise
`.real` of a |VectorArray| member. -/
structure SylvOps (K V U : Type) where
  addV : V → V → V
  smulV : K → V → V
  negV : V → V
  zeroV : V
  reV : V → V
  addU : U → U → U
  smulU : K → U → U
  zeroU : U
  conj : K → K
  applyA : V → V
  applyAadj : V → V
  applyInv : K → K → V → V
  applyInvAdj : K → K → V → V

/-- Record of one inverse solve performed by the algorithm: the Schur
column being solved, the coefficient of `A` and of `E` in the
`LincombOperator`, and whether the adjoint inverse was used. -/
structure SylvCall (K : Type) where
  col : ℕ
  coeffA : K
  coeffE : K
  adjoint : Bool
deriving DecidableEq, Repr

/-- Embedding of `VectorArray.lincomb` for a single coefficient row:
the weighted sum of the vectors of the array. -/
def lincombV {K V U : Type} (ops : SylvOps K V U) (ws : List K) (vs : List V) : V :=
  (List.zip ws vs).foldr (fun wv acc => ops.addV (ops.smulV wv.1 wv.2) acc) ops.zeroV

/-- Embedding of `VectorArray.lincomb` on the `U` side. -/
def lincombU {K V U : Type} (ops : SylvOps K V U) (ws : List K) (us : List U) : U :=
  (List.zip ws us).foldr (fun wu acc => ops.addU (ops.smulU wu.1 wu.2) acc) ops.zeroU

/-- Vector subtraction `rhs -= term`, written through `addV`/`negV`. -/
def subV {K V U : Type} (ops : SylvOps K V U) (a b : V) : V :=
  ops.addV a (ops.negV b)

/-- Right-hand side of the V column step of `solve_sylv_schur`
(lines 117-121).  At step `k` the Python loop index is `i = -(k+1)`,
the Schur column is `c = r-1-k`, and `vs` holds the previously solved
columns in append order (`vs[j]` is column `r-1-j`):
`rhs = -BBr2[i]`, minus — only for `i < -1` — the corrections
`A.apply(V.lincomb(TEr[i, :i:-1].conjugate()))` (only when `Er` was
given) and `E.apply(V.lincomb(TAr[i, :i:-1].conjugate()))`. -/
def sylvVRhs {K V U : Type} (ops : SylvOps K V U) (applyE : V → V) (hasEr : Bool)
    (TAr TEr : ℕ → ℕ → K) (BBr2 : List V) (r : ℕ) (vs : List V) (k : ℕ) : V :=
  let c := r - 1 - k
  let rhs0 := ops.negV (BBr2.getD c ops.zeroV)
  if k = 0 then rhs0
  else
    let rhsE :=
      if hasEr then
        subV ops rhs0
          (ops.applyA (lincombV ops
            ((List.range k).map (fun j => ops.conj (TEr c (r - 1 - j)))) vs))
      else rhs0
    subV ops rhsE
      (applyE (lincombV ops
        ((List.range k).map (fun j => ops.conj (TAr c (r - 1 - j)))) vs))

/-- Coefficient of `A` in the `LincombOperator` of the V column step
(line 123): `TErii.conjugate()`, where `TErii` is `TEr[i, i]` when `Er`
was given and the literal `1` otherwise. -/
def sylvVCoeffA {K V U : Type} [One K] (ops : SylvOps K V U) (hasEr : Bool)
    (TEr : ℕ → ℕ → K) (r k : ℕ) : K :=
  if hasEr then ops.conj (TEr (r - 1 - k) (r - 1 - k)) else 1

/-- Coefficient of `E` in the `LincombOperator` of the V column step
(line 123): `TAr[i, i].conjugate()`. -/
def sylvVCoeffE {K V U : Type} (ops : SylvOps K V U) (TAr : ℕ → ℕ → K) (r k : ℕ) : K :=
  ops.conj (TAr (r - 1 - k) (r - 1 - k))

/-- Embedding of the V column loop of `solve_sylv_schur`
(lines 116-124): columns are solved from the last Schur column to the
first, each step appending
`eAaE.apply_inverse(rhs)` for
`eAaE = LincombOperator([A, E], [TErii.conjugate(), TAr[i, i].conjugate()])`
and recording the call in the trace. -/
def sylvVLoop {K V U : Type} [One K] (ops : SylvOps K V U) (applyE : V → V) (hasEr : Bool)
    (TAr TEr : ℕ → ℕ → K) (BBr2 : List V) (r : ℕ) : ℕ → List V × List (SylvCall K)
  | 0 => ([], [])
  | k + 1 =>
    let st := sylvVLoop ops applyE hasEr TAr TEr BBr2 r k
    let cA := sylvVCoeffA ops hasEr TEr r k
    let cE := sylvVCoeffE ops TAr r k
    (st.1 ++ [ops.applyInv cA cE (sylvVRhs ops applyE hasEr TAr TEr BBr2 r st.1 k)],
     st.2 ++ [⟨r - 1 - k, cA, cE, false⟩])

/-- Right-hand side of the W column step of `solve_sylv_schur`
(lines 136-140).  At step `i` (ascending), `ws` holds the previously
solved columns in append order (`ws[j]` is column `j`):
`rhs = -CTCr2[i]`, minus — only for `i > 0` — the corrections
`A.apply_adjoint(W.lincomb(TEr[:i, i]))` (only when `Er` was given) and
`E.apply_adjoint(W.lincomb(TAr[:i, i]))`; note that these weights are
not conjugated. -/
def sylvWRhs {K V U : Type} (ops : SylvOps K V U) (applyEadj : V → V) (hasEr : Bool)
    (TAr TEr : ℕ → ℕ → K) (CTCr2 : List V) (ws : List V) (k : ℕ) : V :=
  let rhs0 := ops.negV (CTCr2.getD k ops.zeroV)
  if k = 0 then rhs0
  else
    let rhsE :=
      if hasEr then
        subV ops rhs0
          (ops.applyAadj (lincombV ops ((List.range k).map (fun j => TEr j k)) ws))
      else rhs0
    subV ops rhsE
      (applyEadj (lincombV ops ((List.range k).map (fun j => TAr j k)) ws))

/-- Coefficient of `A` in the `LincombOperator` of the W column step
(line 142). -/
def sylvWCoeffA {K V U : Type} [One K] (ops : SylvOps K V U) (hasEr : Bool)
    (TEr : ℕ → ℕ → K) (k : ℕ) : K :=
  if hasEr then ops.conj (TEr k k) else 1

/-- Coefficient of `E` in the `LincombOperator` of the W column step
(line 142). -/
def sylvWCoeffE {K V U : Type} (ops : SylvOps K V U) (TAr : ℕ → ℕ → K) (k : ℕ) : K :=
  ops.conj (TAr k k)

/-- Embedding of the W column loop of `solve_sylv_schur`
(lines 135-143): columns are solved from the first Schur column to the
last, each step appending `eAaE.apply_inverse_adjoint(rhs)` and
recording the call in the trace. -/
def sylvWLoop {K V U : Type} [One K] (ops : SylvOps K V U) (applyEadj : V → V) (hasEr : Bool)
    (TAr TEr : ℕ → ℕ → K) (CTCr2 : List V) : ℕ → List V × List (SylvCall K)
  | 0 => ([], [])
  | k + 1 =>
    let st := sylvWLoop ops applyEadj hasEr TAr TEr CTCr2 k
    let cA := sylvWCoeffA ops hasEr TEr k
    let cE := sylvWCoeffE ops TAr k
    (st.1 ++ [ops.applyInvAdj cA cE (sylvWRhs ops applyEadj hasEr TAr TEr CTCr2 st.1 k)],
     st.2 ++ [⟨k, cA, cE, true⟩])

/-- Back transform of V (line 126): `V.lincomb(Z.conjugate()[:, ::-1])`,
whose row `j` weights the solved columns `vs` (in append order,
`vs[k]` being Schur column `r-1-k`) by `conj(Z[j, r-1-k])`. -/
def vBackTransform {K V U : Type} (ops : SylvOps K V U) (Z : ℕ → ℕ → K) (r : ℕ)
    (vs : List V) : List V :=
  (List.range r).map (fun j =>
    lincombV ops ((List.range r).map (fun k => ops.conj (Z j (r - 1 - k)))) vs)

/-- Back transform of W (line 145): `W.lincomb(Q.conjugate())`, whose
row `j` weights the solved columns `ws` by `conj(Q[j, k])`. -/
def wBackTransform {K V U : Type} (ops : SylvOps K V U) (Q : ℕ → ℕ → K) (r : ℕ)
    (ws : List V) : List V :=
  (List.range r).map (fun j =>
    lincombV ops ((List.range r).map (fun k => ops.conj (Q j k))) ws)

/-- Errors of the embedded solver: the `ValueError` of line 81 raised
when neither equation can be solved, and the `DimensionError` raised by
`lincomb` when the array length does not match the coefficient
matrix. -/
inductive SylvErr where
  | notEnough
  | dimensionError
deriving DecidableEq, Repr

/-- Return shape of the embedded solver (lines 148-153). -/
inductive SylvResult (V : Type) where
  | both (v w : List V)
  | onlyV (v : List V)
  | onlyW (w : List V)
deriving DecidableEq, Repr

/-- Embedding of the `compute_V` block (lines 111-127):
`Br2 = Br.lincomb(Q.T)` (requiring `len(Br) = r`),
`BBr2 = B.apply(Br2)`, the column loop from the last column to the
first, back transform by `Z` and the real part.  Returns the final V
together with the trace of inverse solves. -/
def solveVPart {K V U : Type} [One K] (ops : SylvOps K V U) (applyE : V → V) (hasEr : Bool)
    (TAr TEr Q Z : ℕ → ℕ → K) (r : ℕ) (applyB : U → V) (BrArr : List U) :
    Except SylvErr (List V × List (SylvCall K)) :=
  if BrArr.length = r then
    let Br2 := (List.range r).map (fun j =>
      lincombU ops ((List.range r).map (fun k => Q k j)) BrArr)
    let BBr2 := Br2.map applyB
    let st := sylvVLoop ops applyE hasEr TAr TEr BBr2 r r
    .ok ((vBackTransform ops Z r st.1).map ops.reV, st.2)
  else .error .dimensionError

/-- Embedding of the `compute_W` block (lines 130-146):
`Cr2 = Cr.lincomb(Z.T)` (requiring `len(Cr) = r`),
`CTCr2 = C.apply_adjoint(Cr2)`, the column loop from the first column
to the last, back transform by `Q` and the real part. -/
def solveWPart {K V U : Type} [One K] (ops : SylvOps K V U) (applyEadj : V → V) (hasEr : Bool)
    (TAr TEr Q Z : ℕ → ℕ → K) (r : ℕ) (applyCadj : U → V) (CrArr : List U) :
    Except SylvErr (List V × List (SylvCall K)) :=
  if CrArr.length = r then
    let Cr2 := (List.range r).map (fun j =>
      lincombU ops ((List.range r).map (fun k => Z k j)) CrArr)
    let CTCr2 := Cr2.map applyCadj
    let st := sylvWLoop ops applyEadj hasEr TAr TEr CTCr2 r
    .ok ((wBackTransform ops Q r st.1).map ops.reV, st.2)
  else .error .dimensionError

/-- Embedding of `solve_sylv_schur`.  The operator kind and space
assertions of lines 69-91 are type-level in this embedding; `r` is
`Ar.shape[0]` and `TAr, TEr, Q, Z` are the outputs of the external
scipy Schur decomposition of the reduced pencil.  `Eo` carries the
`apply`/`apply_adjoint` of `E` when given (absent means the identity
operator, line 74); `hasEr` records whether `Er` was given.  `B` and
`C` enter only through `B.apply` and `C.apply_adjoint`; `Br` and `Cr`
enter as the arrays `Br.as_source_array()` and `Cr.as_range_array()`.
The result is paired with the trace of all inverse solves
performed. -/
def solve_sylv_schur_core {K V U : Type} [One K] (ops : SylvOps K V U)
    (applyE applyEadj : V → V) (hasEr : Bool)
    (TAr TEr Q Z : ℕ → ℕ → K) (r : ℕ)
    (B : Option (U → V)) (Br : Option (List U)) (C : Option (U → V)) (Cr : Option (List U)) :
    Except SylvErr (SylvResult V) × List (SylvCall K) :=
  match B, Br, C, Cr with
  | some applyB, some BrArr, some applyCadj, some CrArr =>
    match solveVPart ops applyE hasEr TAr TEr Q Z r applyB BrArr with
    | .error e => (.error e, [])
    | .ok (v, trV) =>
      match solveWPart ops applyEadj hasEr TAr TEr Q Z r applyCadj CrArr with
      | .error e => (.error e, trV)
      | .ok (w, trW) => (.ok (.both v w), trV ++ trW)
  | some applyB, some BrArr, _, _ =>
    match solveVPart ops applyE hasEr TAr TEr Q Z r applyB BrArr with
    | .error e => (.error e, [])
    | .ok (v, trV) => (.ok (.onlyV v), trV)
  | _, _, some applyCadj, some CrArr =>
    match solveWPart ops applyEadj hasEr TAr TEr Q Z r applyCadj CrArr with
    | .error e => (.error e, [])
    | .ok (w, trW) => (.ok (.onlyW w), trW)
  | _, _, _, _ => (.error .notEnough, [])

theorem sylvVLoop_trace {K V U : Type} [One K] (ops : SylvOps K V U) (applyE : V → V)
    (hasEr : Bool) (TAr TEr : ℕ → ℕ → K) (BBr2 : List V) (r : ℕ) (k : ℕ) :
    (sylvVLoop ops applyE hasEr TAr TEr BBr2 r k).2
      = (List.range k).map (fun j =>
          ⟨r - 1 - j, sylvVCoeffA ops hasEr TEr r j, sylvVCoeffE ops TAr r j, false⟩) := by
  induction k with
  | zero => rfl
  | succ m ih =>
    rw [sylvVLoop, List.range_succ]
    simp [ih]

theorem sylvVLoop_length {K V U : Type} [One K] (ops : SylvOps K V U) (applyE : V → V)
    (hasEr : Bool) (TAr TEr : ℕ → ℕ → K) (BBr2 : List V) (r : ℕ) (k : ℕ) :
    (sylvVLoop ops applyE hasEr TAr TEr BBr2 r k).1.length = k := by
  induction k with
  | zero => rfl
  | succ m ih => rw [sylvVLoop]; simp [ih]

theorem sylvVLoop_take {K V U : Type} [One K] (ops : SylvOps K V U) (applyE : V → V)
    (hasEr : Bool) (TAr TEr : ℕ → ℕ → K) (BBr2 : List V) (r : ℕ) {k m : ℕ} (hkm : k ≤ m) :
    (sylvVLoop ops applyE hasEr TAr TEr BBr2 r m).1.take k
      = (sylvVLoop ops applyE hasEr TAr TEr BBr2 r k).1 := by
  induction m with
  | zero =>
    have hk : k = 0 := Nat.le_zero.mp hkm
    subst hk
    rfl
  | succ m ih =>
    rcases Nat.lt_or_ge k (m + 1) with h | h
    · have hle : k ≤ m := by omega
      rw [sylvVLoop]
      simp only []
      rw [List.take_append_of_le_length (by rw [sylvVLoop_length]; exact hle)]
      exact ih hle
    · have hk : k = m + 1 := by omega
      subst hk
      exact List.take_of_length_le (by rw [sylvVLoop_length])

theorem sylvVLoop_get {K V U : Type} [One K] (ops : SylvOps K V U) (applyE : V → V)
    (hasEr : Bool) (TAr TEr : ℕ → ℕ → K) (BBr2 : List V) (r : ℕ) {k m : ℕ} (hkm : k < m) :
    (sylvVLoop ops applyE hasEr TAr TEr BBr2 r m).1[k]?
      = some (ops.applyInv (sylvVCoeffA ops hasEr TEr r k) (sylvVCoeffE ops TAr r k)
          (sylvVRhs ops applyE hasEr TAr TEr BBr2 r
            (sylvVLoop ops applyE hasEr TAr TEr BBr2 r k).1 k)) := by
  induction m with
  | zero => omega
  | succ m ih =>
    rw [sylvVLoop]
    rcases Nat.lt_or_ge k m with h | h
    · simp only []
      rw [List.getElem?_append_left (by rw [sylvVLoop_length]; exact h)]
      exact ih h
    · have hk : k = m := by omega
      subst hk
      simp only []
      rw [List.getElem?_append_right (by rw [sylvVLoop_length])]
      simp [sylvVLoop_length]

theorem sylvWLoop_trace {K V U : Type} [One K] (ops : SylvOps K V U) (applyEadj : V → V)
    (hasEr : Bool) (TAr TEr : ℕ → ℕ → K) (CTCr2 : List V) (k : ℕ) :
    (sylvWLoop ops applyEadj hasEr TAr TEr CTCr2 k).2
      = (List.range k).map (fun j =>
          ⟨j, sylvWCoeffA ops hasEr TEr j, sylvWCoeffE ops TAr j, true⟩) := by
  induction k with
  | zero => rfl
  | succ m ih =>
    rw [sylvWLoop, List.range_succ]
    simp [ih]

theorem sylvWLoop_length {K V U : Type} [One K] (ops : SylvOps K V U) (applyEadj : V → V)
    (hasEr : Bool) (TAr TEr : ℕ → ℕ → K) (CTCr2 : List V) (k : ℕ) :
    (sylvWLoop ops applyEadj hasEr TAr TEr CTCr2 k).1.length = k := by
  induction k with
  | zero => rfl
  | succ m ih => rw [sylvWLoop]; simp [ih]

theorem sylvWLoop_take {K V U : Type} [One K] (ops : SylvOps K V U) (applyEadj : V → V)
    (hasEr : Bool) (TAr TEr : ℕ → ℕ → K) (CTCr2 : List V) {k m : ℕ} (hkm : k ≤ m) :
    (sylvWLoop ops applyEadj hasEr TAr TEr CTCr2 m).1.take k
      = (sylvWLoop ops applyEadj hasEr TAr TEr CTCr2 k).1 := by
  induction m with
  | zero =>
    have hk : k = 0 := Nat.le_zero.mp hkm
    subst hk
    rfl
  | succ m ih =>
    rcases Nat.lt_or_ge k (m + 1) with h | h
    · have hle : k ≤ m := by omega
      rw [sylvWLoop]
      simp only []
      rw [List.take_append_of_le_length (by rw [sylvWLoop_length]; exact hle)]
      exact ih hle
    · have hk : k = m + 1 := by omega
      subst hk
      exact List.take_of_length_le (by rw [sylvWLoop_length])

theorem sylvWLoop_get {K V U : Type} [One K] (ops : SylvOps K V U) (applyEadj : V → V)
    (hasEr : Bool) (TAr TEr : ℕ → ℕ → K) (CTCr2 : List V) {k m : ℕ} (hkm : k < m) :
    (sylvWLoop ops applyEadj hasEr TAr TEr CTCr2 m).1[k]?
      = some (ops.applyInvAdj (sylvWCoeffA ops hasEr TEr k) (sylvWCoeffE ops TAr k)
          (sylvWRhs ops applyEadj hasEr TAr TEr CTCr2
            (sylvWLoop ops applyEadj hasEr TAr TEr CTCr2 k).1 k)) := by
  induction m with
  | zero => omega
  | succ m ih =>
    rw [sylvWLoop]
    rcases Nat.lt_or_ge k m with h | h
    · simp only []
      rw [List.getElem?_append_left (by rw [sylvWLoop_length]; exact h)]
      exact ih h
    · have hk : k = m := by omega
      subst hk
      simp only []
      rw [List.getElem?_append_right (by rw [sylvWLoop_length])]
      simp [sylvWLoop_length]

theorem solveVPart_ok {K V U : Type} [One K] (ops : SylvOps K V U) (applyE : V → V)
    (hasEr : Bool) (TAr TEr Q Z : ℕ → ℕ → K) (r : ℕ) (applyB : U → V) (BrArr : List U)
    (hBr : BrArr.length = r) :
    solveVPart ops applyE hasEr TAr TEr Q Z r applyB BrArr
      = .ok ((vBackTransform ops Z r
            (sylvVLoop ops applyE hasEr TAr TEr
              (((List.range r).map (fun j =>
                lincombU ops ((List.range r).map (fun k => Q k j)) BrArr)).map applyB)
              r r).1).map ops.reV,
          (sylvVLoop ops applyE hasEr TAr TEr
            (((List.range r).map (fun j =>
              lincombU ops ((List.range r).map (fun k => Q k j)) BrArr)).map applyB)
            r r).2) := by
  rw [solveVPart, if_pos hBr]

theorem solveWPart_ok {K V U : Type} [One K] (ops : SylvOps K V U) (applyEadj : V → V)
    (hasEr : Bool) (TAr TEr Q Z : ℕ → ℕ → K) (r : ℕ) (applyCadj : U → V) (CrArr : List U)
    (hCr : CrArr.length = r) :
    solveWPart ops applyEadj hasEr TAr TEr Q Z r applyCadj CrArr
      = .ok ((wBackTransform ops Q r
            (sylvWLoop ops applyEadj hasEr TAr TEr
              (((List.range r).map (fun j =>
                lincombU ops ((List.range r).map (fun k => Z k j)) CrArr)).map applyCadj)
              r).1).map ops.reV,
          (sylvWLoop ops applyEadj hasEr TAr TEr
            (((List.range r).map (fun j =>
              lincombU ops ((List.range r).map (fun k => Z k j)) CrArr)).map applyCadj)
            r).2) := by
  rw [solveWPart, if_pos hCr]

/-- Apply action of the operator `E` of `solve_sylv_schur`: when `E` is
absent it is replaced by the identity operator (line 74). -/
def eApply {V : Type} (Eo : Option ((V → V) × (V → V))) : V → V :=
  match Eo with | none => id | some p => p.1

/-- Adjoint apply action of the operator `E` of `solve_sylv_schur`,
the identity when `E` is absent. -/
def eApplyAdj {V : Type} (Eo : Option ((V → V) × (V → V))) : V → V :=
  match Eo with | none => id | some p => p.2

/-- Embedding of the entry point `solve_sylv_schur`: when `E` is absent
it is replaced by the identity operator (line 74), then the body
dispatches on which of `B`, `Br`, `C`, `Cr` are given. -/
def solve_sylv_schur {K V U : Type} [One K] (ops : SylvOps K V U)
    (Eo : Option ((V → V) × (V → V))) (hasEr : Bool)
    (TAr TEr Q Z : ℕ → ℕ → K) (r : ℕ)
    (B : Option (U → V)) (Br : Option (List U)) (C : Option (U → V)) (Cr : Option (List U)) :
    Except SylvErr (SylvResult V) × List (SylvCall K) :=
  solve_sylv_schur_core ops (eApply Eo) (eApplyAdj Eo) hasEr TAr TEr Q Z r B Br C Cr

theorem solveVPart_ne_notEnough {K V U : Type} [One K] (ops : SylvOps K V U) (applyE : V → V)
    (hasEr : Bool) (TAr TEr Q Z : ℕ → ℕ → K) (r : ℕ) (applyB : U → V) (BrArr : List U) :
    solveVPart ops applyE hasEr TAr TEr Q Z r applyB BrArr ≠ .error .notEnough := by
  rw [solveVPart]
  split <;> simp

theorem solveWPart_ne_notEnough {K V U : Type} [One K] (ops : SylvOps K V U) (applyEadj : V → V)
    (hasEr : Bool) (TAr TEr Q Z : ℕ → ℕ → K) (r : ℕ) (applyCadj : U → V) (CrArr : List U) :
    solveWPart ops applyEadj hasEr TAr TEr Q Z r applyCadj CrArr ≠ .error .notEnough := by
  rw [solveWPart]
  split <;> simp

theorem solve_core_V_pair_ne {K V U : Type} [One K] (ops : SylvOps K V U)
    (applyE applyEadj : V → V) (hasEr : Bool) (TAr TEr Q Z : ℕ → ℕ → K) (r : ℕ)
    (applyB : U → V) (BrArr : List U) (C : Option (U → V)) (Cr : Option (List U)) :
    (solve_sylv_schur_core ops applyE applyEadj hasEr TAr TEr Q Z r
        (some applyB) (some BrArr) C Cr).1 ≠ .error .notEnough := by
  have hVne := solveVPart_ne_notEnough ops applyE hasEr TAr TEr Q Z r applyB BrArr
  cases C with
  | none =>
    simp only [solve_sylv_schur_core]
    cases hV : solveVPart ops applyE hasEr TAr TEr Q Z r applyB BrArr with
    | error e =>
      rw [hV] at hVne
      simp only [hV]
      exact fun hcon => hVne (by rw [(Except.error.injEq _ _).mp hcon])
    | ok p =>
      obtain ⟨v, trV⟩ := p
      simp [hV]
  | some c =>
    cases Cr with
    | none =>
      simp only [solve_sylv_schur_core]
      cases hV : solveVPart ops applyE hasEr TAr TEr Q Z r applyB BrArr with
      | error e =>
        rw [hV] at hVne
        simp only [hV]
        exact fun hcon => hVne (by rw [(Except.error.injEq _ _).mp hcon])
      | ok p =>
        obtain ⟨v, trV⟩ := p
        simp [hV]
    | some crArr =>
      have hWne := solveWPart_ne_notEnough ops applyEadj hasEr TAr TEr Q Z r c crArr
      simp only [solve_sylv_schur_core]
      cases hV : solveVPart ops applyE hasEr TAr TEr Q Z r applyB BrArr with
      | error e =>
        rw [hV] at hVne
        simp only [hV]
        exact fun hcon => hVne (by rw [(Except.error.injEq _ _).mp hcon])
      | ok p =>
        obtain ⟨v, trV⟩ := p
        cases hW : solveWPart ops applyEadj hasEr TAr TEr Q Z r c crArr with
        | error e =>
          rw [hW] at hWne
          simp only [hV, hW]
          exact fun hcon => hWne (by rw [(Except.error.injEq _ _).mp hcon])
        | ok q =>
          obtain ⟨w, trW⟩ := q
          simp [hV, hW]

theorem solve_core_W_pair_ne {K V U : Type} [One K] (ops : SylvOps K V U)
    (applyE applyEadj : V → V) (hasEr : Bool) (TAr TEr Q Z : ℕ → ℕ → K) (r : ℕ)
    (B : Option (U → V)) (Br : Option (List U)) (applyCadj : U → V) (CrArr : List U) :
    (solve_sylv_schur_core ops applyE applyEadj hasEr TAr TEr Q Z r
        B Br (some applyCadj) (some CrArr)).1 ≠ .error .notEnough := by
  have hWne := solveWPart_ne_notEnough ops applyEadj hasEr TAr TEr Q Z r applyCadj CrArr
  cases B with
  | none =>
    simp only [solve_sylv_schur_core]
    cases hW : solveWPart ops applyEadj hasEr TAr TEr Q Z r applyCadj CrArr with
    | error e =>
      rw [hW] at hWne
      simp only [hW]
      exact fun hcon => hWne (by rw [(Except.error.injEq _ _).mp hcon])
    | ok q =>
      obtain ⟨w, trW⟩ := q
      simp [hW]
  | some applyB =>
    cases Br with
    | none =>
      simp only [solve_sylv_schur_core]
      cases hW : solveWPart ops applyEadj hasEr TAr TEr Q Z r applyCadj CrArr with
      | error e =>
        rw [hW] at hWne
        simp only [hW]
        exact fun hcon => hWne (by rw [(Except.error.injEq _ _).mp hcon])
      | ok q =>
        obtain ⟨w, trW⟩ := q
        simp [hW]
    | some BrArr =>
      exact solve_core_V_pair_ne ops applyE applyEadj hasEr TAr TEr Q Z r applyB BrArr
        (some applyCadj) (some CrArr)

/-- C6: the embedded `solve_sylv_schur` returns the `ValueError` of line
81 exactly when neither the pair `B`/`Br` nor the pair `C`/`Cr` is
fully supplied, and in that case its trace of inverse solves is empty
(the error is raised before any solve); when at least one matching pair
is supplied that error is never returned. -/
theorem C6_solve_sylv_schur_not_enough {K V U : Type} [One K] (ops : SylvOps K V U)
    (Eo : Option ((V → V) × (V → V))) (hasEr : Bool) (TAr TEr Q Z : ℕ → ℕ → K) (r : ℕ)
    (B : Option (U → V)) (Br : Option (List U)) (C : Option (U → V)) (Cr : Option (List U)) :
    ((solve_sylv_schur ops Eo hasEr TAr TEr Q Z r B Br C Cr).1 = .error .notEnough
       ↔ ¬ (B.isSome = true ∧ Br.isSome = true) ∧ ¬ (C.isSome = true ∧ Cr.isSome = true)) ∧
    ((solve_sylv_schur ops Eo hasEr TAr TEr Q Z r B Br C Cr).1 = .error .notEnough →
       (solve_sylv_schur ops Eo hasEr TAr TEr Q Z r B Br C Cr).2 = []) := by
  rw [solve_sylv_schur]
  cases B <;> cases Br <;> cases C <;> cases Cr <;>
    first
    | exact ⟨⟨fun h => absurd h (solve_core_V_pair_ne _ _ _ _ _ _ _ _ _ _ _ _ _),
              fun hq => (hq.1 ⟨rfl, rfl⟩).elim⟩,
             fun h => absurd h (solve_core_V_pair_ne _ _ _ _ _ _ _ _ _ _ _ _ _)⟩
    | exact ⟨⟨fun h => absurd h (solve_core_W_pair_ne _ _ _ _ _ _ _ _ _ _ _ _ _),
              fun hq => (hq.2 ⟨rfl, rfl⟩).elim⟩,
             fun h => absurd h (solve_core_W_pair_ne _ _ _ _ _ _ _ _ _ _ _ _ _)⟩
    | exact ⟨by simp [solve_sylv_schur_core], fun _ => rfl⟩

/-- C9: when the embedded `solve_sylv_schur` succeeds it returns the
pair `(V, W)` if both `B`/`Br` and `C`/`Cr` were given, only `V` if
just `B`/`Br` were given, and only `W` if just `C`/`Cr` were given;
every returned array has exactly `r` vectors (vectors of `A.source`,
which is the type `V` of the embedding). -/
theorem C9_solve_sylv_schur_return_shape {K V U : Type} [One K] (ops : SylvOps K V U)
    (Eo : Option ((V → V) × (V → V))) (hasEr : Bool) (TAr TEr Q Z : ℕ → ℕ → K) (r : ℕ) :
    (∀ (applyB applyCadj : U → V) (BrArr CrArr : List U),
      BrArr.length = r → CrArr.length = r →
      ∃ v w, (solve_sylv_schur ops Eo hasEr TAr TEr Q Z r (some applyB) (some BrArr)
          (some applyCadj) (some CrArr)).1 = .ok (.both v w)
        ∧ v.length = r ∧ w.length = r) ∧
    (∀ (applyB : U → V) (BrArr : List U) (C : Option (U → V)) (Cr : Option (List U)),
      C = none ∨ Cr = none → BrArr.length = r →
      ∃ v, (solve_sylv_schur ops Eo hasEr TAr TEr Q Z r (some applyB) (some BrArr) C Cr).1
          = .ok (.onlyV v) ∧ v.length = r) ∧
    (∀ (B : Option (U → V)) (Br : Option (List U)) (applyCadj : U → V) (CrArr : List U),
      B = none ∨ Br = none → CrArr.length = r →
      ∃ w, (solve_sylv_schur ops Eo hasEr TAr TEr Q Z r B Br (some applyCadj) (some CrArr)).1
          = .ok (.onlyW w) ∧ w.length = r) := by
  refine ⟨?_, ?_, ?_⟩
  · intro applyB applyCadj BrArr CrArr hBr hCr
    rw [solve_sylv_schur]
    have hV := solveVPart_ok ops (eApply Eo) hasEr TAr TEr Q Z r applyB BrArr hBr
    have hW := solveWPart_ok ops (eApplyAdj Eo) hasEr TAr TEr Q Z r applyCadj CrArr hCr
    simp only [solve_sylv_schur_core, hV, hW]
    refine ⟨_, _, rfl, ?_, ?_⟩
    · simp [vBackTransform]
    · simp [wBackTransform]
  · intro applyB BrArr C Cr hnone hBr
    rw [solve_sylv_schur]
    have hV := solveVPart_ok ops (eApply Eo) hasEr TAr TEr Q Z r applyB BrArr hBr
    rcases hnone with hC | hCr
    · subst hC
      simp only [solve_sylv_schur_core, hV]
      refine ⟨_, rfl, ?_⟩
      simp [vBackTransform]
    · subst hCr
      cases C with
      | none =>
        simp only [solve_sylv_schur_core, hV]
        refine ⟨_, rfl, ?_⟩
        simp [vBackTransform]
      | some c =>
        simp only [solve_sylv_schur_core, hV]
        refine ⟨_, rfl, ?_⟩
        simp [vBackTransform]
  · intro B Br applyCadj CrArr hnone hCr
    rw [solve_sylv_schur]
    have hW := solveWPart_ok ops (eApplyAdj Eo) hasEr TAr TEr Q Z r applyCadj CrArr hCr
    rcases hnone with hB | hBr
    · subst hB
      simp only [solve_sylv_schur_core, hW]
      refine ⟨_, rfl, ?_⟩
      simp [wBackTransform]
    · subst hBr
      cases B with
      | none =>
        simp only [solve_sylv_schur_core, hW]
        refine ⟨_, rfl, ?_⟩
        simp [wBackTransform]
      | some b =>
        simp only [solve_sylv_schur_core, hW]
        refine ⟨_, rfl, ?_⟩
        simp [wBackTransform]

/-- C7: after the column-by-column solves, the returned `V` is the
back transform of the solved columns by `Z` (row `j` weighting column
`r-1-k` of the solve order by `conj(Z[j, r-1-k])`, line 126) with the
real part taken elementwise, and the returned `W` is the back
transform by `Q` (weights `conj(Q[j, k])`, line 145) with the real
part taken; the equations hold unconditionally given only the
dimension guards — no check on the discarded imaginary part is
performed anywhere in the tail of the algorithm. -/
theorem C7_back_transform_and_real_part {K V U : Type} [One K] (ops : SylvOps K V U)
    (applyE applyEadj : V → V) (hasEr : Bool) (TAr TEr Q Z : ℕ → ℕ → K) (r : ℕ)
    (applyB applyCadj : U → V) (BrArr CrArr : List U)
    (hBr : BrArr.length = r) (hCr : CrArr.length = r) (j : ℕ) (hj : j < r) :
    ∃ v w tr,
      solve_sylv_schur_core ops applyE applyEadj hasEr TAr TEr Q Z r
          (some applyB) (some BrArr) (some applyCadj) (some CrArr)
        = (.ok (.both v w), tr) ∧
      v[j]? = some (ops.reV (lincombV ops
          ((List.range r).map (fun k => ops.conj (Z j (r - 1 - k))))
          (sylvVLoop ops applyE hasEr TAr TEr
            (((List.range r).map (fun i =>
              lincombU ops ((List.range r).map (fun k => Q k i)) BrArr)).map applyB)
            r r).1)) ∧
      w[j]? = some (ops.reV (lincombV ops
          ((List.range r).map (fun k => ops.conj (Q j k)))
          (sylvWLoop ops applyEadj hasEr TAr TEr
            (((List.range r).map (fun i =>
              lincombU ops ((List.range r).map (fun k => Z k i)) CrArr)).map applyCadj)
            r).1)) := by
  have hV := solveVPart_ok ops applyE hasEr TAr TEr Q Z r applyB BrArr hBr
  have hW := solveWPart_ok ops applyEadj hasEr TAr TEr Q Z r applyCadj CrArr hCr
  simp only [solve_sylv_schur_core, hV, hW]
  refine ⟨_, _, _, rfl, ?_, ?_⟩
  · simp [vBackTransform, List.getElem?_map, List.getElem?_range, hj]
  · simp [wBackTransform, List.getElem?_map, List.getElem?_range, hj]

/-- C2 amended: in the embedded `solve_sylv_schur`, the columns of `V`
are solved from the last Schur column to the first and the columns of
`W` from the first to the last; every V column step performs exactly
one `apply_inverse` and every W column step exactly one
`apply_inverse_adjoint` (not `apply_inverse`) of the
`LincombOperator([A, E], ...)` whose coefficients are the
complex-conjugated current diagonal Schur entries, and the right-hand
side of each step carries the corrections from the previously solved
columns weighted by off-diagonal Schur entries, as recorded by
`sylvVRhs`/`sylvWRhs`. -/
theorem C2_sylvester_column_solves_amended {K V U : Type} [One K] (ops : SylvOps K V U)
    (applyE applyEadj : V → V) (hasEr : Bool) (TAr TEr Q Z : ℕ → ℕ → K) (r : ℕ)
    (applyB applyCadj : U → V) (BrArr CrArr : List U)
    (hBr : BrArr.length = r) (hCr : CrArr.length = r) :
    ((solve_sylv_schur_core ops applyE applyEadj hasEr TAr TEr Q Z r
        (some applyB) (some BrArr) (some applyCadj) (some CrArr)).2
      = (List.range r).map (fun k =>
          ⟨r - 1 - k, sylvVCoeffA ops hasEr TEr r k, sylvVCoeffE ops TAr r k, false⟩)
        ++ (List.range r).map (fun k =>
          ⟨k, sylvWCoeffA ops hasEr TEr k, sylvWCoeffE ops TAr k, true⟩)) ∧
    (∀ (BBr2 : List V) (k : ℕ), k < r →
      (sylvVLoop ops applyE hasEr TAr TEr BBr2 r r).1[k]?
        = some (ops.applyInv (sylvVCoeffA ops hasEr TEr r k) (sylvVCoeffE ops TAr r k)
            (sylvVRhs ops applyE hasEr TAr TEr BBr2 r
              ((sylvVLoop ops applyE hasEr TAr TEr BBr2 r r).1.take k) k))) ∧
    (∀ (CTCr2 : List V) (k : ℕ), k < r →
      (sylvWLoop ops applyEadj hasEr TAr TEr CTCr2 r).1[k]?
        = some (ops.applyInvAdj (sylvWCoeffA ops hasEr TEr k) (sylvWCoeffE ops TAr k)
            (sylvWRhs ops applyEadj hasEr TAr TEr CTCr2
              ((sylvWLoop ops applyEadj hasEr TAr TEr CTCr2 r).1.take k) k))) := by
  refine ⟨?_, ?_, ?_⟩
  · have hV := solveVPart_ok ops applyE hasEr TAr TEr Q Z r applyB BrArr hBr
    have hW := solveWPart_ok ops applyEadj hasEr TAr TEr Q Z r applyCadj CrArr hCr
    simp only [solve_sylv_schur_core, hV, hW]
    rw [sylvVLoop_trace, sylvWLoop_trace]
  · intro BBr2 k hk
    rw [sylvVLoop_take ops applyE hasEr TAr TEr BBr2 r (Nat.le_of_lt hk)]
    exact sylvVLoop_get ops applyE hasEr TAr TEr BBr2 r hk
  · intro CTCr2 k hk
    rw [sylvWLoop_take ops applyEadj hasEr TAr TEr CTCr2 (Nat.le_of_lt hk)]
    exact sylvWLoop_get ops applyEadj hasEr TAr TEr CTCr2 hk

/-- Degenerate rational instantiation of the abstract operator
interface, used to exercise the embedded solver on concrete inputs:
every operator action is an identity-like function, so all value
computations stay kernel-reducible. -/
def sylvOpsWitness : SylvOps ℚ ℚ ℚ where
  addV := fun a _ => a
  smulV := fun _ v => v
  negV := fun v => v
  zeroV := 0
  reV := fun v => v
  addU := fun a _ => a
  smulU := fun _ u => u
  zeroU := 0
  conj := fun c => c
  applyA := fun v => v
  applyAadj := fun v => v
  applyInv := fun _ _ v => v
  applyInvAdj := fun _ _ v => v

/-- C2 counterexample: on a concrete one-dimensional instance where
only the `C`/`Cr` equation is requested, the single column step
performs an `apply_inverse_adjoint` call, not an `apply_inverse` call,
so it is false that every column step performs an `apply_inverse`. -/
theorem C2_counterexample :
    ((solve_sylv_schur sylvOpsWitness none false (fun _ _ => (1 : ℚ)) (fun _ _ => 1)
        (fun _ _ => 1) (fun _ _ => 1) 1 none none (some id) (some [0])).2.all
      (fun c => !c.adjoint)) = false := by
  decide

theorem C2_witness :
    ((solve_sylv_schur_core sylvOpsWitness id id false (fun _ _ => (1 : ℚ)) (fun _ _ => 1)
        (fun _ _ => 1) (fun _ _ => 1) 1 (some id) (some [0]) (some id) (some [0])).2
      = [⟨0, 1, 1, false⟩, ⟨0, 1, 1, true⟩]) ∧
    ((sylvVLoop sylvOpsWitness id false (fun _ _ => (1 : ℚ)) (fun _ _ => 1) [0] 1 1).1[0]?
      = some 0) ∧
    ((sylvWLoop sylvOpsWitness id false (fun _ _ => (1 : ℚ)) (fun _ _ => 1) [0] 1).1[0]?
      = some 0) := by
  have h := C2_sylvester_column_solves_amended sylvOpsWitness id id false
    (fun _ _ => (1 : ℚ)) (fun _ _ => 1) (fun _ _ => 1) (fun _ _ => 1) 1 id id [0] [0] rfl rfl
  refine ⟨?_, ?_, ?_⟩
  · rw [h.1]
    decide
  · rw [h.2.1 [0] 0 (by decide)]
    decide
  · rw [h.2.2 [0] 0 (by decide)]
    decide

theorem C6_witness :
    (solve_sylv_schur sylvOpsWitness none false (fun _ _ => (1 : ℚ)) (fun _ _ => 1)
        (fun _ _ => 1) (fun _ _ => 1) 1 none none none (some [0])).1
      = .error .notEnough ∧
    (solve_sylv_schur sylvOpsWitness none false (fun _ _ => (1 : ℚ)) (fun _ _ => 1)
        (fun _ _ => 1) (fun _ _ => 1) 1 none none none (some [0])).2 = [] := by
  have h := C6_solve_sylv_schur_not_enough sylvOpsWitness none false
    (fun _ _ => (1 : ℚ)) (fun _ _ => 1) (fun _ _ => 1) (fun _ _ => 1) 1 none none none (some [0])
  have h1 := h.1.mpr (by simp)
  exact ⟨h1, h.2 h1⟩

theorem C9_witness :
    (∃ v w, (solve_sylv_schur sylvOpsWitness none false (fun _ _ => (1 : ℚ)) (fun _ _ => 1)
        (fun _ _ => 1) (fun _ _ => 1) 1 (some id) (some [0]) (some id) (some [0])).1
      = .ok (.both v w) ∧ v.length = 1 ∧ w.length = 1) ∧
    (∃ v, (solve_sylv_schur sylvOpsWitness none false (fun _ _ => (1 : ℚ)) (fun _ _ => 1)
        (fun _ _ => 1) (fun _ _ => 1) 1 (some id) (some [0]) none none).1
      = .ok (.onlyV v) ∧ v.length = 1) ∧
    (∃ w, (solve_sylv_schur sylvOpsWitness none false (fun _ _ => (1 : ℚ)) (fun _ _ => 1)
        (fun _ _ => 1) (fun _ _ => 1) 1 none none (some id) (some [0])).1
      = .ok (.onlyW w) ∧ w.length = 1) := by
  have h := C9_solve_sylv_schur_return_shape sylvOpsWitness none false
    (fun _ _ => (1 : ℚ)) (fun _ _ => 1) (fun _ _ => 1) (fun _ _ => 1) 1
  exact ⟨h.1 id id [0] [0] rfl rfl,
         h.2.1 id [0] none none (Or.inl rfl) rfl,
         h.2.2 none none id [0] (Or.inl rfl) rfl⟩

theorem C7_witness :
    ∃ v w tr,
      solve_sylv_schur_core sylvOpsWitness id id false (fun _ _ => (1 : ℚ)) (fun _ _ => 1)
          (fun _ _ => 1) (fun _ _ => 1) 1 (some id) (some [0]) (some id) (some [0])
        = (.ok (.both v w), tr) ∧
      v[0]? = some (sylvOpsWitness.reV (lincombV sylvOpsWitness
          ((List.range 1).map (fun k => sylvOpsWitness.conj ((fun _ _ => (1 : ℚ)) 0 (1 - 1 - k))))
          (sylvVLoop sylvOpsWitness id false (fun _ _ => (1 : ℚ)) (fun _ _ => 1)
            (((List.range 1).map (fun i =>
              lincombU sylvOpsWitness ((List.range 1).map (fun k => (fun _ _ => (1 : ℚ)) k i)) [0])).map id)
            1 1).1)) ∧
      w[0]? = some (sylvOpsWitness.reV (lincombV sylvOpsWitness
          ((List.range 1).map (fun k => sylvOpsWitness.conj ((fun _ _ => (1 : ℚ)) 0 k)))
          (sylvWLoop sylvOpsWitness id false (fun _ _ => (1 : ℚ)) (fun _ _ => 1)
            (((List.range 1).map (fun i =>
              lincombU sylvOpsWitness ((List.range 1).map (fun k => (fun _ _ => (1 : ℚ)) k i)) [0])).map id)
            1).1)) :=
  C7_back_transform_and_real_part sylvOpsWitness id id false (fun _ _ => (1 : ℚ)) (fun _ _ => 1)
    (fun _ _ => 1) (fun _ _ => 1) 1 id id [0] [0] rfl rfl 0 (by decide)

end Pymor
